import Mathlib

/-!
Verification of the iterative refinement orchestration and citation
bookkeeping subsystem of the `adk-demo` research agent
(`app/agent.py`).

The embedding is a shallow one over Lean data:

* Python dicts whose insertion order matters (`url_to_short_id`,
  `sources`) are association lists `List (key × value)`; lookup is the
  first matching key (keys are kept unique by the code itself, which
  checks membership before inserting).
* Python `None` is `Option.none`; optional object fields become
  `Option` fields.
* Floating point confidence values are only ever stored and compared,
  never computed with, so they are modelled as rationals.
* Fallible or event-driven control flow is explicit state passing.
-/

/-- Python `d.get(key)` on an association list: the value at the first
matching key, or `none`. -/
def pyGet {α β : Type} [DecidableEq α] : List (α × β) → α → Option β
  | [], _ => none
  | (k, v) :: rest, key => if key = k then some v else pyGet rest key

/-! ## Quality gate (`EscalationChecker._run_async_impl`)

The gate reads `research_evaluation` from session state (absent key =
`none`) and escalates exactly when the Python condition
`evaluation_result and evaluation_result.get("grade") == "pass"` is
truthy.  A Python dict is falsy iff empty.  Only string-valued fields
are modelled, since the gate consults only `"grade"`. -/

/-- A verdict dict as stored under the `research_evaluation` state key. -/
abbrev VerdictDict : Type := List (String × String)

/-- `EscalationChecker`: `True` means an escalation event is emitted
(loop must stop); `False` means a plain event is emitted (loop body
runs again).  The function is total: no input raises. -/
def escalationCheck (r : Option VerdictDict) : Bool :=
  match r with
  | none => false
  | some d => !d.isEmpty && decide (pyGet d "grade" = some "pass")

/-! ## Refinement loop (`iterative_refinement_loop`)

Modelled from the spec: the bounded loop driver (`LoopAgent`) is
`google.adk` library code not present in this repository; §4.3 of the
spec describes it as running Evaluate → Gate → Refine in strict order
each iteration, terminating in `ESCALATED` as soon as the gate
escalates (before Refine runs) and in `EXHAUSTED` once
`iteration_count = max_iterations` after a Refine, without
re-evaluating.  The gate itself is the faithful `escalationCheck`
embedding above; the evaluator is an oracle assigning each iteration
number the verdict dict it writes to `research_evaluation`. -/

/-- Terminal states of the refinement loop. -/
inductive LoopStatus : Type
  | escalated
  | exhausted
deriving DecidableEq, Repr

/-- Observable stage executions, tagged with the iteration number. -/
inductive StageEv : Type
  | evaluate (i : Nat)
  | gate (i : Nat)
  | refine (i : Nat)
deriving DecidableEq, Repr

/-- One loop execution from iteration `i`, with `fuel` bounding the
number of remaining iterations (the entry point passes
`fuel = maxIter`, which is exact).  Returns the terminal state and the
chronological trace of stage executions. -/
def loopGo (oracle : Nat → VerdictDict) (maxIter : Nat) :
    Nat → Nat → LoopStatus × List StageEv
  | 0, _ => (LoopStatus.exhausted, [])
  | fuel + 1, i =>
    if escalationCheck (some (oracle i)) then
      (LoopStatus.escalated, [StageEv.evaluate i, StageEv.gate i])
    else if i = maxIter then
      (LoopStatus.exhausted,
        [StageEv.evaluate i, StageEv.gate i, StageEv.refine i])
    else
      let r := loopGo oracle maxIter fuel (i + 1)
      (r.1, StageEv.evaluate i :: StageEv.gate i :: StageEv.refine i :: r.2)

/-- Run the refinement loop with the given iteration budget. -/
def runLoop (maxIter : Nat) (oracle : Nat → VerdictDict) :
    LoopStatus × List StageEv :=
  loopGo oracle maxIter maxIter 1

/-! ## Source registry (`collect_research_sources_callback`)

Data mirrors the `google.genai` grounding types: every field the code
dereferences behind a truthiness check is an `Option`. -/

/-- `chunk.web`: the web payload of a grounding chunk. -/
structure Web : Type where
  uri : Option String
  title : Option String
  domain : Option String
deriving DecidableEq, Repr

/-- One grounding chunk; `web = none` models a falsy `chunk.web`. -/
structure GroundingChunk : Type where
  web : Option Web
deriving DecidableEq, Repr

/-- `support.segment`: carries the supported text span. -/
structure SegmentInfo : Type where
  text : Option String
deriving DecidableEq, Repr

/-- One grounding support entry of an event. -/
structure GroundingSupport : Type where
  confidence_scores : Option (List ℚ)
  grounding_chunk_indices : Option (List Nat)
  segment : Option SegmentInfo
deriving DecidableEq, Repr

/-- `event.grounding_metadata`. -/
structure GroundingMetadata : Type where
  grounding_chunks : Option (List GroundingChunk)
  grounding_supports : Option (List GroundingSupport)
deriving DecidableEq, Repr

/-- A session event, restricted to the grounding data the callback
reads. -/
structure AgentEvent : Type where
  grounding_metadata : Option GroundingMetadata
deriving DecidableEq, Repr

/-- An entry of a `Source`'s `supported_claims` list. -/
structure SupportedClaim : Type where
  text_segment : Option String
  confidence : ℚ
deriving DecidableEq, Repr

/-- The per-source record stored under `sources[short_id]`. -/
structure Source : Type where
  short_id : String
  title : Option String
  url : Option String
  domain : Option String
  supported_claims : List SupportedClaim
deriving DecidableEq, Repr

/-- The two shared-state accumulators the callback reads and writes. -/
structure RegState : Type where
  url_to_short_id : List (Option String × String)
  sources : List (String × Source)
deriving DecidableEq, Repr

/-- The empty registry state of a fresh run. -/
def emptyReg : RegState := { url_to_short_id := [], sources := [] }

/-- The `title` expression of the callback, verbatim:
`chunk.web.title if chunk.web.title != chunk.web.domain else
chunk.web.domain`. -/
def chunkTitle (w : Web) : Option String :=
  if w.title ≠ w.domain then w.title else w.domain

/-- Processing of a single enumerated chunk: register a fresh url under
the next sequential short id (the membership check keeps keys unique,
so dict insertion is modelled by appending) and record the chunk
position in the per-event index `info`. -/
def processChunk (st : RegState) (ctr : Nat) (info : List (Nat × String))
    (idx : Nat) (c : GroundingChunk) : RegState × Nat × List (Nat × String) :=
  match c.web with
  | none => (st, ctr, info)
  | some w =>
    match pyGet st.url_to_short_id w.uri with
    | some sid => (st, ctr, info ++ [(idx, sid)])
    | none =>
      let sid := "src-" ++ toString ctr
      ({ url_to_short_id := st.url_to_short_id ++ [(w.uri, sid)],
         sources := st.sources ++
           [(sid,
             { short_id := sid, title := chunkTitle w, url := w.uri,
               domain := w.domain, supported_claims := [] })] },
       ctr + 1, info ++ [(idx, sid)])

/-- `for idx, chunk in enumerate(...)` over the chunk list. -/
def processChunksAux : Nat → List GroundingChunk → RegState → Nat →
    List (Nat × String) → RegState × Nat × List (Nat × String)
  | _, [], st, ctr, info => (st, ctr, info)
  | idx, c :: cs, st, ctr, info =>
    match processChunk st ctr info idx c with
    | (st2, ctr2, info2) => processChunksAux (idx + 1) cs st2 ctr2 info2

/-- `confidence_scores[i] if i < len(confidence_scores) else 0.5`. -/
def confidenceAt (scores : List ℚ) (i : Nat) : ℚ :=
  scores.getD i (0.5 : ℚ)

/-- `support.segment.text if support.segment else ""`: note that a
present segment with a `None` text stores `None`. -/
def textSegmentOf (s : GroundingSupport) : Option String :=
  match s.segment with
  | some seg => seg.text
  | none => some ""

/-- `sources[short_id]["supported_claims"].append(claim)`: in-place
update of the record stored under `sid`. -/
def appendClaim (srcs : List (String × Source)) (sid : String)
    (cl : SupportedClaim) : List (String × Source) :=
  srcs.map fun p =>
    if p.1 = sid then
      (p.1, { p.2 with supported_claims := p.2.supported_claims ++ [cl] })
    else p

/-- `for i, chunk_idx in enumerate(chunk_indices)` of one support. -/
def processSupportAux (info : List (Nat × String)) (scores : List ℚ)
    (txt : Option String) : Nat → List Nat → List (String × Source) →
    List (String × Source)
  | _, [], srcs => srcs
  | i, cidx :: rest, srcs =>
    processSupportAux info scores txt (i + 1) rest
      (match pyGet info cidx with
       | some sid =>
         appendClaim srcs sid
           { text_segment := txt, confidence := confidenceAt scores i }
       | none => srcs)

/-- The support loop of one event (`support.confidence_scores or []`
and `support.grounding_chunk_indices or []` both collapse `None` and
the empty list to `[]`). -/
def processSupports (info : List (Nat × String))
    (sups : List GroundingSupport) (srcs : List (String × Source)) :
    List (String × Source) :=
  sups.foldl
    (fun acc s =>
      processSupportAux info (s.confidence_scores.getD [])
        (textSegmentOf s) 0 (s.grounding_chunk_indices.getD []) acc)
    srcs

/-- Processing of one session event.  The guard
`if not (event.grounding_metadata and
event.grounding_metadata.grounding_chunks): continue` skips events with
absent metadata and with an absent or empty chunk list. -/
def processEvent (st : RegState) (ctr : Nat) (e : AgentEvent) :
    RegState × Nat :=
  match e.grounding_metadata with
  | none => (st, ctr)
  | some md =>
    match md.grounding_chunks with
    | none => (st, ctr)
    | some [] => (st, ctr)
    | some (c :: cs) =>
      match processChunksAux 0 (c :: cs) st ctr [] with
      | (st2, ctr2, info) =>
        match md.grounding_supports with
        | none => (st2, ctr2)
        | some sups =>
          ({ st2 with sources := processSupports info sups st2.sources },
           ctr2)

/-- `collect_research_sources_callback`: read the accumulators from
state, seed `id_counter = len(url_to_short_id) + 1`, fold over all
session events, and write the accumulators back. -/
def collectResearchSources (events : List AgentEvent) (st : RegState) :
    RegState :=
  (events.foldl (fun p e => processEvent p.1 p.2 e)
    (st, st.url_to_short_id.length + 1)).1

/-! ## Citation rewriter (`citation_replacement_callback`)

The regex `<cite\s+source\s*=\s*["']?\s*(src-\d+)\s*["']?\s*/>` is
embedded as a deterministic scanner over `List Char`: every
character class of the pattern (whitespace, quote, letter, digit) is
disjoint from what may legally follow it, so greedy matching without
backtracking is exact.  `re.sub` semantics (leftmost, non-overlapping,
continue after the match) is the recursive scan `citeSubF`.

The registry the rewriter consults is the `sources` state key written
by `collect_research_sources_callback`, so its entries are the `Source`
records above: dicts that always carry the `title`, `url` and `domain`
keys, with values that may be Python `None`. -/

/-- Python string interpolation `f"{v}"` of a value that is either a
string or `None`: `None` renders as the literal string `None`. -/
def pyStr (v : Option String) : String :=
  match v with
  | some s => s
  | none => "None"

/-- `source_info.get("title", source_info.get("domain", short_id))`:
since every collector-created record carries the `title` and `domain`
keys and Python `.get` returns a present key's value even when that
value is `None`, the expression always evaluates to the stored title
value and the domain/id fallbacks are dead code. -/
def displayValue (src : Source) : Option String :=
  src.title

/-- The body of `tag_replacer`: the replacement text for one matched
tag, together with the diagnostic warning (if any).  An unresolvable
id yields the empty replacement plus a non-fatal warning; a resolved
id yields `f" [{display_text}]({source_info['url']})"`, with `None`
values rendered by the f-string as `None`.  The function is total, so
no input raises. -/
def tagReplacer (sources : List (String × Source)) (sid matched : String) :
    String × Option String :=
  match pyGet sources sid with
  | none => ("", some ("Invalid citation tag found and removed: " ++ matched))
  | some src =>
    (" [" ++ pyStr (displayValue src) ++ "](" ++ pyStr src.url ++ ")", none)

/-- Python `\s` (ASCII range, which is all the agent emits). -/
def pyIsSpace (c : Char) : Bool :=
  c == ' ' || c == '\t' || c == '\n' || c == '\r' ||
    c == Char.ofNat 11 || c == Char.ofNat 12

/-- The `["']` character class. -/
def isQuote (c : Char) : Bool :=
  c == '"' || c == '\''

/-- The punctuation class `[.,;:]` of the whitespace fix-up. -/
def pyIsPunct (c : Char) : Bool :=
  c == '.' || c == ',' || c == ';' || c == ':'

/-- Match a literal string prefix, returning the rest. -/
def dropLit : List Char → List Char → Option (List Char)
  | [], l => some l
  | _ :: _, [] => none
  | p :: ps, c :: cs => if c = p then dropLit ps cs else none

/-- `\s*`: drop a maximal whitespace run. -/
def wsStar (l : List Char) : List Char :=
  l.dropWhile pyIsSpace

/-- `\s+`: at least one whitespace character, then a maximal run. -/
def ws1 : List Char → Option (List Char)
  | [] => none
  | c :: cs => if pyIsSpace c then some (wsStar cs) else none

/-- `["']?`: drop one optional quote. -/
def quoteOpt : List Char → List Char
  | [] => []
  | c :: cs => if isQuote c then cs else c :: cs

/-- `\d+`: at least one digit, greedy; returns the digits and the rest. -/
def digits1 : List Char → Option (List Char × List Char)
  | [] => none
  | c :: cs =>
    if c.isDigit then some (c :: cs.takeWhile Char.isDigit, cs.dropWhile Char.isDigit)
    else none

/-- Try to match the full cite-tag pattern at the head of `l`,
returning the captured group `src-\d+` and the rest of the input. -/
def matchCite (l : List Char) : Option (String × List Char) :=
  (dropLit "<cite".toList l).bind fun r1 =>
  (ws1 r1).bind fun r2 =>
  (dropLit "source".toList r2).bind fun r3 =>
  (dropLit "=".toList (wsStar r3)).bind fun r5 =>
  (dropLit "src-".toList (wsStar (quoteOpt (wsStar r5)))).bind fun r9 =>
  (digits1 r9).bind fun p =>
  (dropLit "/>".toList (wsStar (quoteOpt (wsStar p.2)))).map fun r14 =>
  ("src-" ++ String.mk p.1, r14)

/-- `re.sub` of the cite-tag pattern: scan left to right, substitute
each match via `tagReplacer`, collect warnings in order.  `fuel`
bounds the recursion; every step consumes at least one character, so
`fuel = l.length` (the entry point) is exact. -/
def citeSubF (sources : List (String × Source)) :
    Nat → List Char → List Char × List String
  | 0, l => (l, [])
  | _ + 1, [] => ([], [])
  | fuel + 1, c :: cs =>
    match matchCite (c :: cs) with
    | some (sid, rest) =>
      let consumed := (c :: cs).length - rest.length
      let matched := String.mk ((c :: cs).take consumed)
      let rep := tagReplacer sources sid matched
      let tail := citeSubF sources fuel rest
      (rep.1.toList ++ tail.1,
       match rep.2 with
       | some w => w :: tail.2
       | none => tail.2)
    | none =>
      let tail := citeSubF sources fuel cs
      (c :: tail.1, tail.2)

/-- Entry point of the tag substitution pass. -/
def citeSub (sources : List (String × Source)) (l : List Char) :
    List Char × List String :=
  citeSubF sources l.length l

/-- `re.sub(r"\s+([.,;:])", r"\1", ...)`: a maximal whitespace run
immediately followed by one of `. , ; :` is replaced by that
punctuation character alone; any other character is copied.  `fuel`
bounds the recursion; every step consumes at least one character. -/
def normWsF : Nat → List Char → List Char
  | 0, l => l
  | _ + 1, [] => []
  | fuel + 1, c :: cs =>
    if pyIsSpace c then
      match (c :: cs).dropWhile pyIsSpace with
      | [] => c :: cs
      | p :: rest2 =>
        if pyIsPunct p then p :: normWsF fuel rest2
        else (c :: cs).takeWhile pyIsSpace ++ normWsF fuel (p :: rest2)
    else c :: normWsF fuel cs

/-- Entry point of the whitespace fix-up pass. -/
def normWs (l : List Char) : List Char :=
  normWsF l.length l

/-- `citation_replacement_callback` on the report text: substitute all
cite tags, then fix whitespace before punctuation.  Returns the
processed report and the diagnostic warnings emitted along the way. -/
def citationReplacement (finalReport : String)
    (sources : List (String × Source)) : String × List String :=
  let p := citeSub sources finalReport.toList
  (String.mk (normWs p.1), p.2)

/-! ## Registry invariants and concrete fixtures -/

/-- The id sequence `["src-1", …, "src-n"]`. -/
def seqIds (n : Nat) : List String :=
  (List.range n).map (fun k => "src-" ++ toString (k + 1))

/-- The short ids of the url map are exactly `src-1 … src-n` in
assignment (= first-discovery) order. -/
def IdsOk (m : List (Option String × String)) : Prop :=
  m.map Prod.snd = seqIds m.length

instance (m : List (Option String × String)) : Decidable (IdsOk m) := by
  unfold IdsOk; infer_instance

/-- Each url occurs at most once in the url map: no url ever holds two
short ids. -/
def KeysOk (m : List (Option String × String)) : Prop :=
  (m.map Prod.fst).Nodup

instance (m : List (Option String × String)) : Decidable (KeysOk m) := by
  unfold KeysOk; infer_instance

/-- Invariant tying the local `id_counter` to the registry. -/
def RegInv (st : RegState) (ctr : Nat) : Prop :=
  ctr = st.url_to_short_id.length + 1 ∧
    IdsOk st.url_to_short_id ∧ KeysOk st.url_to_short_id

/-- First web chunk of the two-chunk test event. -/
def webA : Web :=
  { uri := some "http://a.example/x", title := some "A Title",
    domain := some "a.example" }

/-- Second web chunk of the two-chunk test event. -/
def webB : Web :=
  { uri := some "http://b.example/y", title := some "B Title",
    domain := some "b.example" }

/-- A support referencing chunks 0 and 1 with a single confidence
score `0.9`. -/
def supAB : GroundingSupport :=
  { confidence_scores := some [(0.9 : ℚ)],
    grounding_chunk_indices := some [0, 1],
    segment := some { text := some "Claim text." } }

/-- A research event with two web-backed chunks and the support
`supAB`. -/
def eventAB : AgentEvent :=
  { grounding_metadata := some
      { grounding_chunks := some [{ web := some webA }, { web := some webB }],
        grounding_supports := some [supAB] } }

/-- A web chunk whose title is absent (`None`). -/
def webT : Web :=
  { uri := some "http://t.example/p", title := none,
    domain := some "t.example" }

/-- An event carrying only the title-less chunk `webT`. -/
def eventT : AgentEvent :=
  { grounding_metadata := some
      { grounding_chunks := some [{ web := some webT }],
        grounding_supports := none } }

/-- The `src-1` record of the round-trip example: title `T`, url
`http://u`, in collector shape. -/
def srcT : Source :=
  { short_id := "src-1", title := some "T", url := some "http://u",
    domain := none, supported_claims := [] }

/-- The record the collector creates from the title-less chunk `webT`:
`title` key present with value `None`. -/
def srcNoneTitle : Source :=
  { short_id := "src-1", title := none, url := some "http://t.example/p",
    domain := some "t.example", supported_claims := [] }

/-- Registry `{src-1: {title: "T", url: "http://u"}}` of the citation
round-trip example. -/
def regT : List (String × Source) :=
  [("src-1", srcT)]

/-- Evaluator oracle writing grade `fail` on iteration 1 and `pass`
afterwards. -/
def oracleFailPass : Nat → VerdictDict :=
  fun i => if i = 1 then [("grade", "fail")] else [("grade", "pass")]

/-- Evaluator oracle always writing grade `fail`. -/
def oracleAllFail : Nat → VerdictDict :=
  fun _ => [("grade", "fail")]

/-- A support with no scores, no indices and no segment. -/
def supEmpty : GroundingSupport :=
  { confidence_scores := none, grounding_chunk_indices := none,
    segment := none }

/-- The urls of the web-backed chunks an event exposes to the
callback. -/
def eventUrls (e : AgentEvent) : List (Option String) :=
  match e.grounding_metadata with
  | none => []
  | some md =>
    (md.grounding_chunks.getD []).filterMap (fun c => c.web.map Web.uri)

/-- The value `sources[sid]["supported_claims"]` (`none` when `sid` is
not registered). -/
def claimsAt (srcs : List (String × Source)) (sid : String) :
    Option (List SupportedClaim) :=
  (pyGet srcs sid).map Source.supported_claims

/-- The per-event chunk-position index (`chunks_info`) as computed
against a url map that already contains every url of the event — what
every invocation after the first one sees. -/
def chunkInfoPure (u2s : List (Option String × String)) :
    Nat → List GroundingChunk → List (Nat × String)
  | _, [] => []
  | idx, c :: cs =>
    match c.web with
    | none => chunkInfoPure u2s (idx + 1) cs
    | some w =>
      match pyGet u2s w.uri with
      | none => chunkInfoPure u2s (idx + 1) cs
      | some sid => (idx, sid) :: chunkInfoPure u2s (idx + 1) cs

/-- The claims one support appends to source `sid`, enumerating its
chunk indices from position `i`. -/
def supAuxDelta (info : List (Nat × String)) (scores : List ℚ)
    (txt : Option String) : Nat → List Nat → String → List SupportedClaim
  | _, [], _ => []
  | i, cidx :: rest, sid =>
    (if pyGet info cidx = some sid then
      [{ text_segment := txt, confidence := confidenceAt scores i }]
     else []) ++ supAuxDelta info scores txt (i + 1) rest sid

/-- The claims one support appends to source `sid`. -/
def supDelta (info : List (Nat × String)) (s : GroundingSupport)
    (sid : String) : List SupportedClaim :=
  supAuxDelta info (s.confidence_scores.getD []) (textSegmentOf s) 0
    (s.grounding_chunk_indices.getD []) sid

/-- The claims one event appends to source `sid` when processed against
the complete url map `u2s`. -/
def eventDelta (u2s : List (Option String × String)) (e : AgentEvent)
    (sid : String) : List SupportedClaim :=
  match e.grounding_metadata with
  | none => []
  | some md =>
    match md.grounding_chunks with
    | none => []
    | some [] => []
    | some (c :: cs) =>
      match md.grounding_supports with
      | none => []
      | some sups =>
        (sups.map (fun s => supDelta (chunkInfoPure u2s 0 (c :: cs)) s sid)).flatten

/-- The claims one full invocation appends to source `sid` when the url
map `u2s` already contains every url of `events`. -/
def passDelta (u2s : List (Option String × String))
    (events : List AgentEvent) (sid : String) : List SupportedClaim :=
  (events.map (fun e => eventDelta u2s e sid)).flatten

/-- `k` successive invocations of the callback over the same session
events. -/
def collectIter (events : List AgentEvent) : Nat → RegState → RegState
  | 0, st => st
  | k + 1, st => collectIter events k (collectResearchSources events st)

/-! ## Helper lemmas -/

theorem pyGet_eq_none_iff {α β : Type} [DecidableEq α]
    (l : List (α × β)) (k : α) :
    pyGet l k = none ↔ k ∉ l.map Prod.fst := by
  induction l with
  | nil => simp [pyGet]
  | cons p t ih =>
    obtain ⟨a, b⟩ := p
    by_cases h : k = a <;> simp [pyGet, h, ih]

theorem escalationCheck_grade (d : VerdictDict) (g : String)
    (h : pyGet d "grade" = some g) :
    escalationCheck (some d) = decide (g = "pass") := by
  cases d with
  | nil => simp [pyGet] at h
  | cons a t => simp [escalationCheck, h]

/-- Unfolding lemma: gate continues and `i` is not the last iteration. -/
theorem loopGo_cont (oracle : Nat → VerdictDict) (maxIter fuel i : Nat)
    (hg : escalationCheck (some (oracle i)) = false) (hne : i ≠ maxIter) :
    loopGo oracle maxIter (fuel + 1) i =
      ((loopGo oracle maxIter fuel (i + 1)).1,
       StageEv.evaluate i :: StageEv.gate i :: StageEv.refine i ::
         (loopGo oracle maxIter fuel (i + 1)).2) := by
  simp [loopGo, hg, hne]

/-- Unfolding lemma: gate escalates. -/
theorem loopGo_esc (oracle : Nat → VerdictDict) (maxIter fuel i : Nat)
    (hg : escalationCheck (some (oracle i)) = true) :
    loopGo oracle maxIter (fuel + 1) i =
      (LoopStatus.escalated, [StageEv.evaluate i, StageEv.gate i]) := by
  simp [loopGo, hg]

/-- Unfolding lemma: gate continues on the last budgeted iteration. -/
theorem loopGo_stop (oracle : Nat → VerdictDict) (maxIter fuel : Nat)
    (hg : escalationCheck (some (oracle maxIter)) = false) :
    loopGo oracle maxIter (fuel + 1) maxIter =
      (LoopStatus.exhausted,
       [StageEv.evaluate maxIter, StageEv.gate maxIter,
        StageEv.refine maxIter]) := by
  simp [loopGo, hg]

/-! ## Claims -/

/-- C3: the quality gate emits the loop-stop (escalation) signal iff
the `research_evaluation` value is present and its `grade` field equals
`"pass"`; absent verdicts, absent grades and non-pass grades all mean
"run the loop body again".  `escalationCheck` is a total function, so
no verdict shape raises. -/
theorem gate_escalates_iff (r : Option VerdictDict) :
    escalationCheck r = true ↔
      ∃ d, r = some d ∧ pyGet d "grade" = some "pass" := by
  cases r with
  | none => simp [escalationCheck]
  | some d =>
    simp only [escalationCheck, Bool.and_eq_true, Bool.not_eq_true',
      decide_eq_true_eq]
    constructor
    · rintro ⟨-, hg⟩
      exact ⟨d, rfl, hg⟩
    · rintro ⟨d2, hd, hg⟩
      injection hd with hd
      subst hd
      refine ⟨?_, hg⟩
      cases d with
      | nil => simp [pyGet] at hg
      | cons a t => rfl

/-- C1: with `max_iterations = 5`, an evaluator writing grade `fail` on
iteration 1 and `pass` on iteration 2 makes the loop terminate in
`ESCALATED` immediately after the gate of iteration 2; the refinement
stage runs only on iteration 1 and never after the pass verdict. -/
theorem loop_pass_terminates_escalated (oracle : Nat → VerdictDict)
    (h1 : pyGet (oracle 1) "grade" = some "fail")
    (h2 : pyGet (oracle 2) "grade" = some "pass") :
    runLoop 5 oracle =
      (LoopStatus.escalated,
       [StageEv.evaluate 1, StageEv.gate 1, StageEv.refine 1,
        StageEv.evaluate 2, StageEv.gate 2]) := by
  have hg1 : escalationCheck (some (oracle 1)) = false := by
    rw [escalationCheck_grade _ _ h1]; rfl
  have hg2 : escalationCheck (some (oracle (1 + 1))) = true := by
    rw [escalationCheck_grade _ _ h2]; rfl
  have e0 : runLoop 5 oracle = loopGo oracle 5 (4 + 1) 1 := rfl
  rw [e0, loopGo_cont oracle 5 4 1 hg1 (by decide)]
  rw [show loopGo oracle 5 4 (1 + 1) = loopGo oracle 5 (3 + 1) (1 + 1) from rfl,
    loopGo_esc oracle 5 3 (1 + 1) hg2]

/-- C1 witness: the two hypotheses hold for `oracleFailPass` and the
loop trace is as stated. -/
theorem loop_pass_terminates_escalated_witness :
    runLoop 5 oracleFailPass =
      (LoopStatus.escalated,
       [StageEv.evaluate 1, StageEv.gate 1, StageEv.refine 1,
        StageEv.evaluate 2, StageEv.gate 2]) :=
  loop_pass_terminates_escalated oracleFailPass (by decide) (by decide)

/-- C2: with `max_iterations = 3` and every verdict graded `fail`, the
loop terminates in `EXHAUSTED` after exactly three refinement
executions, with no fourth refinement and no fourth evaluation. -/
theorem loop_all_fail_exhausted (oracle : Nat → VerdictDict)
    (h : ∀ i, pyGet (oracle i) "grade" = some "fail") :
    runLoop 3 oracle =
      (LoopStatus.exhausted,
       [StageEv.evaluate 1, StageEv.gate 1, StageEv.refine 1,
        StageEv.evaluate 2, StageEv.gate 2, StageEv.refine 2,
        StageEv.evaluate 3, StageEv.gate 3, StageEv.refine 3]) := by
  have hg : ∀ i, escalationCheck (some (oracle i)) = false := fun i => by
    rw [escalationCheck_grade _ _ (h i)]; rfl
  have e0 : runLoop 3 oracle = loopGo oracle 3 (2 + 1) 1 := rfl
  rw [e0, loopGo_cont oracle 3 2 1 (hg 1) (by decide)]
  rw [show loopGo oracle 3 2 (1 + 1) = loopGo oracle 3 (1 + 1) (1 + 1) from rfl,
    loopGo_cont oracle 3 1 (1 + 1) (hg (1 + 1)) (by decide)]
  rw [show loopGo oracle 3 1 (1 + 1 + 1) = loopGo oracle 3 (0 + 1) 3 from rfl,
    loopGo_stop oracle 3 0 (hg 3)]

/-- C2 witness: the all-fail hypothesis holds for `oracleAllFail` and
the loop trace is as stated. -/
theorem loop_all_fail_exhausted_witness :
    runLoop 3 oracleAllFail =
      (LoopStatus.exhausted,
       [StageEv.evaluate 1, StageEv.gate 1, StageEv.refine 1,
        StageEv.evaluate 2, StageEv.gate 2, StageEv.refine 2,
        StageEv.evaluate 3, StageEv.gate 3, StageEv.refine 3]) :=
  loop_all_fail_exhausted oracleAllFail (fun _ => rfl)

/-- C5: on a two-chunk event whose support has
`grounding_chunk_indices = [0, 1]` and `confidence_scores = [0.9]`, the
claim appended to chunk 0's source has confidence `0.9` and the one
appended to chunk 1's source has the default `0.5`; in general a
position with no confidence score defaults to `0.5` and an absent
segment defaults the text to the empty string. -/
theorem claim_attachment_defaults :
    ((pyGet (collectResearchSources [eventAB] emptyReg).sources "src-1").map
        Source.supported_claims =
      some [{ text_segment := some "Claim text.", confidence := (0.9 : ℚ) }]) ∧
    ((pyGet (collectResearchSources [eventAB] emptyReg).sources "src-2").map
        Source.supported_claims =
      some [{ text_segment := some "Claim text.", confidence := (0.5 : ℚ) }]) ∧
    (∀ (scores : List ℚ) (i : Nat), scores.length ≤ i →
      confidenceAt scores i = (0.5 : ℚ)) ∧
    (∀ s : GroundingSupport, s.segment = none → textSegmentOf s = some "") := by
  refine ⟨rfl, rfl, ?_, ?_⟩
  · intro scores i h
    rw [confidenceAt, List.getD_eq_default _ _ h]
  · intro s hs
    simp [textSegmentOf, hs]

/-- C5 witness: hypotheses discharged at `scores = []`, `i = 0` and at
the segment-less support `supEmpty`. -/
theorem claim_attachment_defaults_witness :
    confidenceAt [] 0 = (0.5 : ℚ) ∧ textSegmentOf supEmpty = some "" :=
  ⟨claim_attachment_defaults.2.2.1 [] 0 (by decide),
   claim_attachment_defaults.2.2.2 supEmpty rfl⟩

theorem pyGet_is_some_mem {α β : Type} [DecidableEq α]
    {l : List (α × β)} {k : α} {v : β} (h : pyGet l k = some v) :
    k ∈ l.map Prod.fst := by
  by_contra hk
  rw [(pyGet_eq_none_iff l k).mpr hk] at h
  exact Option.noConfusion h

theorem appendClaim_keys (srcs : List (String × Source)) (sid : String)
    (cl : SupportedClaim) :
    (appendClaim srcs sid cl).map Prod.fst = srcs.map Prod.fst := by
  induction srcs with
  | nil => rfl
  | cons p t ih =>
    by_cases h : p.1 = sid <;>
      simp only [appendClaim, List.map_cons, h, if_true, if_false] at ih ⊢ <;>
      simp_all

theorem processSupportAux_keys (info : List (Nat × String))
    (scores : List ℚ) (txt : Option String) :
    ∀ (idxs : List Nat) (i : Nat) (srcs : List (String × Source)),
    (processSupportAux info scores txt i idxs srcs).map Prod.fst =
      srcs.map Prod.fst := by
  intro idxs
  induction idxs with
  | nil => intro i srcs; rfl
  | cons cidx rest ih =>
    intro i srcs
    rw [processSupportAux, ih]
    cases hg : pyGet info cidx with
    | none => rfl
    | some sid => exact appendClaim_keys srcs sid _

theorem processSupports_keys (info : List (Nat × String))
    (sups : List GroundingSupport) :
    ∀ srcs : List (String × Source),
    (processSupports info sups srcs).map Prod.fst = srcs.map Prod.fst := by
  induction sups with
  | nil => intro srcs; rfl
  | cons s rest ih =>
    intro srcs
    unfold processSupports at ih ⊢
    rw [List.foldl_cons, ih, processSupportAux_keys]

theorem processChunk_ext (st : RegState) (ctr : Nat)
    (info : List (Nat × String)) (idx : Nat) (c : GroundingChunk) :
    ∃ t, (processChunk st ctr info idx c).1.url_to_short_id =
      st.url_to_short_id ++ t := by
  cases hw : c.web with
  | none => exact ⟨[], by simp [processChunk, hw]⟩
  | some w =>
    cases hg : pyGet st.url_to_short_id w.uri with
    | some sid => exact ⟨[], by simp [processChunk, hw, hg]⟩
    | none =>
      exact ⟨[(w.uri, "src-" ++ toString ctr)], by simp [processChunk, hw, hg]⟩

theorem processChunksAux_ext (cs : List GroundingChunk) :
    ∀ (idx : Nat) (st : RegState) (ctr : Nat) (info : List (Nat × String)),
    ∃ t, (processChunksAux idx cs st ctr info).1.url_to_short_id =
      st.url_to_short_id ++ t := by
  induction cs with
  | nil => intro idx st ctr info; exact ⟨[], (List.append_nil _).symm⟩
  | cons c cs ih =>
    intro idx st ctr info
    obtain ⟨t1, ht1⟩ := processChunk_ext st ctr info idx c
    rcases hpc : processChunk st ctr info idx c with ⟨st2, ctr2, info2⟩
    rw [hpc] at ht1
    dsimp only at ht1
    have hstep : processChunksAux idx (c :: cs) st ctr info =
        processChunksAux (idx + 1) cs st2 ctr2 info2 := by
      simp only [processChunksAux, hpc]
    rw [hstep]
    obtain ⟨t2, ht2⟩ := ih (idx + 1) st2 ctr2 info2
    exact ⟨t1 ++ t2, by rw [ht2, ht1, List.append_assoc]⟩

theorem processEvent_ext (st : RegState) (ctr : Nat) (e : AgentEvent) :
    ∃ t, (processEvent st ctr e).1.url_to_short_id =
      st.url_to_short_id ++ t := by
  cases hm : e.grounding_metadata with
  | none => exact ⟨[], by simp [processEvent, hm]⟩
  | some md =>
    cases hgc : md.grounding_chunks with
    | none => exact ⟨[], by simp [processEvent, hm, hgc]⟩
    | some chunks =>
      cases chunks with
      | nil => exact ⟨[], by simp [processEvent, hm, hgc]⟩
      | cons c cs =>
        obtain ⟨t1, ht1⟩ := processChunksAux_ext (c :: cs) 0 st ctr []
        rcases hca : processChunksAux 0 (c :: cs) st ctr [] with
          ⟨st2, ctr2, info⟩
        rw [hca] at ht1
        dsimp only at ht1
        cases hgs : md.grounding_supports with
        | none =>
          have he : processEvent st ctr e = (st2, ctr2) := by
            simp only [processEvent, hm, hgc, hca, hgs]
          exact ⟨t1, by rw [he]; exact ht1⟩
        | some sups =>
          have he : processEvent st ctr e =
              ({ st2 with sources := processSupports info sups st2.sources },
               ctr2) := by
            simp only [processEvent, hm, hgc, hca, hgs]
          exact ⟨t1, by rw [he]; exact ht1⟩

theorem foldl_ext (events : List AgentEvent) :
    ∀ (st : RegState) (ctr : Nat),
    ∃ t, (events.foldl (fun p e => processEvent p.1 p.2 e)
      (st, ctr)).1.url_to_short_id = st.url_to_short_id ++ t := by
  induction events with
  | nil => intro st ctr; exact ⟨[], (List.append_nil _).symm⟩
  | cons e es ih =>
    intro st ctr
    obtain ⟨t1, ht1⟩ := processEvent_ext st ctr e
    rcases hpe : processEvent st ctr e with ⟨st2, ctr2⟩
    rw [hpe] at ht1
    dsimp only at ht1
    have hf : (e :: es).foldl (fun p e => processEvent p.1 p.2 e) (st, ctr) =
        es.foldl (fun p e => processEvent p.1 p.2 e) (st2, ctr2) := by
      simp only [List.foldl_cons, hpe]
    rw [hf]
    obtain ⟨t2, ht2⟩ := ih st2 ctr2
    exact ⟨t1 ++ t2, by rw [ht2, ht1, List.append_assoc]⟩

theorem processChunk_url (st : RegState) (ctr : Nat)
    (info : List (Nat × String)) (idx : Nat) (c : GroundingChunk) (w : Web)
    (hw : c.web = some w) :
    w.uri ∈ (processChunk st ctr info idx c).1.url_to_short_id.map
      Prod.fst := by
  cases hg : pyGet st.url_to_short_id w.uri with
  | some sid =>
    simp only [processChunk, hw, hg]
    exact pyGet_is_some_mem hg
  | none =>
    simp [processChunk, hw, hg]
theorem processChunksAux_urls (cs : List GroundingChunk) :
    ∀ (idx : Nat) (st : RegState) (ctr : Nat) (info : List (Nat × String))
      (u : Option String),
    u ∈ cs.filterMap (fun c => c.web.map Web.uri) →
    u ∈ (processChunksAux idx cs st ctr info).1.url_to_short_id.map
      Prod.fst := by
  induction cs with
  | nil => intro idx st ctr info u h; simp at h
  | cons c cs ih =>
    intro idx st ctr info u hu
    rcases hpc : processChunk st ctr info idx c with ⟨st2, ctr2, info2⟩
    have hstep : processChunksAux idx (c :: cs) st ctr info =
        processChunksAux (idx + 1) cs st2 ctr2 info2 := by
      simp only [processChunksAux, hpc]
    rw [hstep]
    rw [List.filterMap_cons] at hu
    cases hw : c.web with
    | none =>
      rw [hw] at hu
      exact ih _ _ _ _ u hu
    | some w =>
      rw [hw] at hu
      simp only [Option.map_some', List.mem_cons] at hu
      rcases hu with heq | hu
      · subst heq
        have h1 : w.uri ∈ st2.url_to_short_id.map Prod.fst := by
          have h2 := processChunk_url st ctr info idx c w hw
          rw [hpc] at h2
          exact h2
        obtain ⟨t, ht⟩ := processChunksAux_ext cs (idx + 1) st2 ctr2 info2
        rw [ht, List.map_append, List.mem_append]
        exact Or.inl h1
      · exact ih _ _ _ _ u hu

theorem eventUrls_none (e : AgentEvent)
    (hm : e.grounding_metadata = none) : eventUrls e = [] := by
  unfold eventUrls
  rw [hm]

theorem eventUrls_some (e : AgentEvent) (md : GroundingMetadata)
    (hm : e.grounding_metadata = some md) :
    eventUrls e =
      (md.grounding_chunks.getD []).filterMap
        (fun c => c.web.map Web.uri) := by
  unfold eventUrls
  rw [hm]

theorem processEvent_urls (st : RegState) (ctr : Nat) (e : AgentEvent)
    (u : Option String) (hu : u ∈ eventUrls e) :
    u ∈ (processEvent st ctr e).1.url_to_short_id.map Prod.fst := by
  cases hm : e.grounding_metadata with
  | none => rw [eventUrls_none e hm] at hu; simp at hu
  | some md =>
    rw [eventUrls_some e md hm] at hu
    cases hgc : md.grounding_chunks with
    | none => rw [hgc] at hu; simp at hu
    | some chunks =>
      rw [hgc] at hu
      simp only [Option.getD_some] at hu
      cases chunks with
      | nil => simp at hu
      | cons c cs =>
        rcases hca : processChunksAux 0 (c :: cs) st ctr [] with
          ⟨st2, ctr2, info⟩
        have h1 : u ∈ st2.url_to_short_id.map Prod.fst := by
          have h2 := processChunksAux_urls (c :: cs) 0 st ctr [] u hu
          rw [hca] at h2
          exact h2
        cases hgs : md.grounding_supports with
        | none =>
          have he : processEvent st ctr e = (st2, ctr2) := by
            simp only [processEvent, hm, hgc, hca, hgs]
          rw [he]
          exact h1
        | some sups =>
          have he : processEvent st ctr e =
              ({ st2 with sources := processSupports info sups st2.sources },
               ctr2) := by
            simp only [processEvent, hm, hgc, hca, hgs]
          rw [he]
          exact h1

theorem foldl_urls (events : List AgentEvent) :
    ∀ (st : RegState) (ctr : Nat) (e : AgentEvent), e ∈ events →
    ∀ u ∈ eventUrls e,
    u ∈ (events.foldl (fun p e => processEvent p.1 p.2 e)
      (st, ctr)).1.url_to_short_id.map Prod.fst := by
  induction events with
  | nil => intro st ctr e he; simp at he
  | cons e0 es ih =>
    intro st ctr e he u hu
    rcases hpe : processEvent st ctr e0 with ⟨st2, ctr2⟩
    have hf : (e0 :: es).foldl (fun p e => processEvent p.1 p.2 e) (st, ctr) =
        es.foldl (fun p e => processEvent p.1 p.2 e) (st2, ctr2) := by
      simp only [List.foldl_cons, hpe]
    rw [hf]
    rcases List.mem_cons.mp he with rfl | he2
    · have h1 : u ∈ st2.url_to_short_id.map Prod.fst := by
        have h2 := processEvent_urls st ctr e u hu
        rw [hpe] at h2
        exact h2
      obtain ⟨t, ht⟩ := foldl_ext es st2 ctr2
      rw [ht, List.map_append, List.mem_append]
      exact Or.inl h1
    · exact ih st2 ctr2 e he2 u hu

theorem processChunk_fix (st : RegState) (ctr : Nat)
    (info : List (Nat × String)) (idx : Nat) (c : GroundingChunk)
    (h : ∀ w, c.web = some w → w.uri ∈ st.url_to_short_id.map Prod.fst) :
    (processChunk st ctr info idx c).1 = st ∧
    (processChunk st ctr info idx c).2.1 = ctr := by
  cases hw : c.web with
  | none => simp [processChunk, hw]
  | some w =>
    have hm := h w hw
    cases hg : pyGet st.url_to_short_id w.uri with
    | none => exact absurd hm ((pyGet_eq_none_iff _ _).mp hg)
    | some sid => simp [processChunk, hw, hg]

theorem processChunksAux_fix (cs : List GroundingChunk) :
    ∀ (idx : Nat) (st : RegState) (ctr : Nat) (info : List (Nat × String)),
    (∀ c ∈ cs, ∀ w, c.web = some w →
      w.uri ∈ st.url_to_short_id.map Prod.fst) →
    (processChunksAux idx cs st ctr info).1 = st ∧
    (processChunksAux idx cs st ctr info).2.1 = ctr := by
  induction cs with
  | nil => intro idx st ctr info _; exact ⟨rfl, rfl⟩
  | cons c cs ih =>
    intro idx st ctr info h
    obtain ⟨h1, h2⟩ := processChunk_fix st ctr info idx c
      (fun w hw => h c (List.mem_cons_self _ _) w hw)
    rcases hpc : processChunk st ctr info idx c with ⟨st2, ctr2, info2⟩
    rw [hpc] at h1 h2
    dsimp only at h1 h2
    have hstep : processChunksAux idx (c :: cs) st ctr info =
        processChunksAux (idx + 1) cs st2 ctr2 info2 := by
      simp only [processChunksAux, hpc]
    rw [hstep, h1, h2]
    exact ih (idx + 1) st ctr info2
      (fun c2 hc2 w hw => h c2 (List.mem_cons_of_mem _ hc2) w hw)

theorem processEvent_fix (st : RegState) (ctr : Nat) (e : AgentEvent)
    (h : ∀ u ∈ eventUrls e, u ∈ st.url_to_short_id.map Prod.fst) :
    (processEvent st ctr e).1.url_to_short_id = st.url_to_short_id ∧
    (processEvent st ctr e).1.sources.map Prod.fst =
      st.sources.map Prod.fst := by
  cases hm : e.grounding_metadata with
  | none => simp [processEvent, hm]
  | some md =>
    cases hgc : md.grounding_chunks with
    | none => simp [processEvent, hm, hgc]
    | some chunks =>
      cases chunks with
      | nil => simp [processEvent, hm, hgc]
      | cons c cs =>
        have hweb : ∀ c2 ∈ c :: cs, ∀ w, c2.web = some w →
            w.uri ∈ st.url_to_short_id.map Prod.fst := by
          intro c2 hc2 w hw
          apply h
          rw [eventUrls_some e md hm, hgc]
          simp only [Option.getD_some]
          exact List.mem_filterMap.mpr ⟨c2, hc2, by rw [hw]; rfl⟩
        obtain ⟨h1, h2⟩ := processChunksAux_fix (c :: cs) 0 st ctr [] hweb
        rcases hca : processChunksAux 0 (c :: cs) st ctr [] with
          ⟨st2, ctr2, info⟩
        rw [hca] at h1 h2
        dsimp only at h1 h2
        cases hgs : md.grounding_supports with
        | none =>
          have he : processEvent st ctr e = (st2, ctr2) := by
            simp only [processEvent, hm, hgc, hca, hgs]
          rw [he, h1]
          exact ⟨rfl, rfl⟩
        | some sups =>
          have he : processEvent st ctr e =
              ({ st2 with sources := processSupports info sups st2.sources },
               ctr2) := by
            simp only [processEvent, hm, hgc, hca, hgs]
          rw [he, h1]
          exact ⟨rfl, processSupports_keys info sups st.sources⟩

theorem foldl_fix (events : List AgentEvent) :
    ∀ (st : RegState) (ctr : Nat),
    (∀ e ∈ events, ∀ u ∈ eventUrls e,
      u ∈ st.url_to_short_id.map Prod.fst) →
    (events.foldl (fun p e => processEvent p.1 p.2 e)
        (st, ctr)).1.url_to_short_id = st.url_to_short_id ∧
    (events.foldl (fun p e => processEvent p.1 p.2 e)
        (st, ctr)).1.sources.map Prod.fst = st.sources.map Prod.fst := by
  induction events with
  | nil => intro st ctr _; exact ⟨rfl, rfl⟩
  | cons e0 es ih =>
    intro st ctr h
    obtain ⟨h1, h2⟩ := processEvent_fix st ctr e0
      (fun u hu => h e0 (List.mem_cons_self _ _) u hu)
    rcases hpe : processEvent st ctr e0 with ⟨st2, ctr2⟩
    rw [hpe] at h1 h2
    dsimp only at h1 h2
    have hf : (e0 :: es).foldl (fun p e => processEvent p.1 p.2 e) (st, ctr) =
        es.foldl (fun p e => processEvent p.1 p.2 e) (st2, ctr2) := by
      simp only [List.foldl_cons, hpe]
    rw [hf]
    obtain ⟨h3, h4⟩ := ih st2 ctr2
      (fun e he u hu => h1 ▸ h e (List.mem_cons_of_mem _ he) u hu)
    exact ⟨h3.trans h1, h4.trans h2⟩

theorem pyGet_some_of_mem {α β : Type} [DecidableEq α]
    {l : List (α × β)} {k : α} (h : k ∈ l.map Prod.fst) :
    ∃ v, pyGet l k = some v := by
  cases hg : pyGet l k with
  | some v => exact ⟨v, rfl⟩
  | none => exact absurd h ((pyGet_eq_none_iff l k).mp hg)

/-- `appendClaim` rewrites exactly the record stored under `sid`,
appending one copy of the claim. -/
theorem pyGet_appendClaim (srcs : List (String × Source)) (sid : String)
    (cl : SupportedClaim) (sid2 : String) :
    pyGet (appendClaim srcs sid cl) sid2 =
      (pyGet srcs sid2).map
        (fun src =>
          if sid2 = sid then
            { src with supported_claims := src.supported_claims ++ [cl] }
          else src) := by
  induction srcs with
  | nil => rfl
  | cons p t ih =>
    obtain ⟨k0, src0⟩ := p
    by_cases hk : k0 = sid
    · subst hk
      have hhead : appendClaim ((k0, src0) :: t) k0 cl =
          (k0, { src0 with
            supported_claims := src0.supported_claims ++ [cl] }) ::
            appendClaim t k0 cl := by
        simp [appendClaim]
      rw [hhead]
      by_cases hs : sid2 = k0 <;> simp [pyGet, hs, ih]
    · have hhead : appendClaim ((k0, src0) :: t) sid cl =
          (k0, src0) :: appendClaim t sid cl := by
        simp [appendClaim, hk]
      rw [hhead]
      by_cases hs : sid2 = k0 <;> simp [pyGet, hs, hk, ih]

/-- Appending a claim to `sid` touches exactly the claims list stored
under `sid`, appending one copy. -/
theorem appendClaim_claimsAt (srcs : List (String × Source)) (sid : String)
    (cl : SupportedClaim) (sid2 : String) :
    claimsAt (appendClaim srcs sid cl) sid2 =
      (claimsAt srcs sid2).map
        (fun l => if sid2 = sid then l ++ [cl] else l) := by
  unfold claimsAt
  rw [pyGet_appendClaim]
  cases pyGet srcs sid2 with
  | none => rfl
  | some src => by_cases h : sid2 = sid <;> simp [h]

/-- The claims-list effect of one support's index loop. -/
theorem processSupportAux_claimsAt (info : List (Nat × String))
    (scores : List ℚ) (txt : Option String) :
    ∀ (idxs : List Nat) (i : Nat) (srcs : List (String × Source))
      (sid : String),
    claimsAt (processSupportAux info scores txt i idxs srcs) sid =
      (claimsAt srcs sid).map
        (fun l => l ++ supAuxDelta info scores txt i idxs sid) := by
  intro idxs
  induction idxs with
  | nil =>
    intro i srcs sid
    cases h : claimsAt srcs sid <;>
      simp [processSupportAux, supAuxDelta, h]
  | cons cidx rest ih =>
    intro i srcs sid
    rw [processSupportAux]
    cases hg : pyGet info cidx with
    | none =>
      rw [ih]
      cases h : claimsAt srcs sid <;> simp [supAuxDelta, hg, h]
    | some sid2 =>
      rw [ih, appendClaim_claimsAt]
      cases h : claimsAt srcs sid with
      | none => simp
      | some l =>
        by_cases hss : sid = sid2
        · simp [supAuxDelta, hg, hss, List.append_assoc]
        · simp [supAuxDelta, hg, hss, Ne.symm hss, List.append_assoc]

/-- The claims-list effect of one event's support loop. -/
theorem processSupports_claimsAt (info : List (Nat × String)) :
    ∀ (sups : List GroundingSupport) (srcs : List (String × Source))
      (sid : String),
    claimsAt (processSupports info sups srcs) sid =
      (claimsAt srcs sid).map
        (fun l => l ++
          (sups.map (fun s => supDelta info s sid)).flatten) := by
  intro sups
  induction sups with
  | nil =>
    intro srcs sid
    cases h : claimsAt srcs sid <;> simp [processSupports, h]
  | cons s rest ih =>
    intro srcs sid
    unfold processSupports at ih ⊢
    rw [List.foldl_cons, ih, processSupportAux_claimsAt]
    cases h : claimsAt srcs sid with
    | none => simp
    | some l => simp [supDelta, List.append_assoc]

/-- When every chunk url is already registered, the per-event index
computed by the chunk loop is the pure `chunkInfoPure` one. -/
theorem processChunksAux_info_fix (cs : List GroundingChunk) :
    ∀ (idx : Nat) (st : RegState) (ctr : Nat) (info : List (Nat × String)),
    (∀ c ∈ cs, ∀ w, c.web = some w →
      w.uri ∈ st.url_to_short_id.map Prod.fst) →
    (processChunksAux idx cs st ctr info).2.2 =
      info ++ chunkInfoPure st.url_to_short_id idx cs := by
  induction cs with
  | nil => intro idx st ctr info _; simp [processChunksAux, chunkInfoPure]
  | cons c cs ih =>
    intro idx st ctr info h
    cases hw : c.web with
    | none =>
      have hpc : processChunk st ctr info idx c = (st, ctr, info) := by
        simp [processChunk, hw]
      have hstep : processChunksAux idx (c :: cs) st ctr info =
          processChunksAux (idx + 1) cs st ctr info := by
        simp only [processChunksAux, hpc]
      rw [hstep,
        ih (idx + 1) st ctr info
          (fun c2 hc2 w hw2 => h c2 (List.mem_cons_of_mem _ hc2) w hw2)]
      simp [chunkInfoPure, hw]
    | some w =>
      obtain ⟨sid, hg⟩ :=
        pyGet_some_of_mem (h c (List.mem_cons_self _ _) w hw)
      have hpc : processChunk st ctr info idx c =
          (st, ctr, info ++ [(idx, sid)]) := by
        simp [processChunk, hw, hg]
      have hstep : processChunksAux idx (c :: cs) st ctr info =
          processChunksAux (idx + 1) cs st ctr (info ++ [(idx, sid)]) := by
        simp only [processChunksAux, hpc]
      rw [hstep,
        ih (idx + 1) st ctr (info ++ [(idx, sid)])
          (fun c2 hc2 w hw2 => h c2 (List.mem_cons_of_mem _ hc2) w hw2)]
      simp [chunkInfoPure, hw, hg, List.append_assoc]

/-- The claims-list effect of one event, when every url of `events` is
already registered. -/
theorem processEvent_claims (st : RegState) (ctr : Nat) (e : AgentEvent)
    (h : ∀ u ∈ eventUrls e, u ∈ st.url_to_short_id.map Prod.fst) :
    ∀ sid, claimsAt (processEvent st ctr e).1.sources sid =
      (claimsAt st.sources sid).map
        (fun l => l ++ eventDelta st.url_to_short_id e sid) := by
  intro sid
  cases hm : e.grounding_metadata with
  | none =>
    have he : processEvent st ctr e = (st, ctr) := by
      simp [processEvent, hm]
    have hd : eventDelta st.url_to_short_id e sid = [] := by
      simp [eventDelta, hm]
    rw [he, hd]
    cases hc : claimsAt st.sources sid <;> simp [hc]
  | some md =>
    cases hgc : md.grounding_chunks with
    | none =>
      have he : processEvent st ctr e = (st, ctr) := by
        simp [processEvent, hm, hgc]
      have hd : eventDelta st.url_to_short_id e sid = [] := by
        simp [eventDelta, hm, hgc]
      rw [he, hd]
      cases hc : claimsAt st.sources sid <;> simp [hc]
    | some chunks =>
      cases chunks with
      | nil =>
        have he : processEvent st ctr e = (st, ctr) := by
          simp [processEvent, hm, hgc]
        have hd : eventDelta st.url_to_short_id e sid = [] := by
          simp [eventDelta, hm, hgc]
        rw [he, hd]
        cases hc : claimsAt st.sources sid <;> simp [hc]
      | cons c cs =>
        have hweb : ∀ c2 ∈ c :: cs, ∀ w, c2.web = some w →
            w.uri ∈ st.url_to_short_id.map Prod.fst := by
          intro c2 hc2 w hw
          apply h
          rw [eventUrls_some e md hm, hgc]
          simp only [Option.getD_some]
          exact List.mem_filterMap.mpr ⟨c2, hc2, by rw [hw]; rfl⟩
        obtain ⟨hfix1, hfix2⟩ := processChunksAux_fix (c :: cs) 0 st ctr [] hweb
        have hinfo := processChunksAux_info_fix (c :: cs) 0 st ctr [] hweb
        rcases hca : processChunksAux 0 (c :: cs) st ctr [] with
          ⟨st2, ctr2, info⟩
        rw [hca] at hfix1 hfix2 hinfo
        dsimp only at hfix1 hfix2 hinfo
        rw [List.nil_append] at hinfo
        cases hgs : md.grounding_supports with
        | none =>
          have he : processEvent st ctr e = (st2, ctr2) := by
            simp only [processEvent, hm, hgc, hca, hgs]
          have hd : eventDelta st.url_to_short_id e sid = [] := by
            simp [eventDelta, hm, hgc, hgs]
          rw [he, hfix1, hd]
          cases hc : claimsAt st.sources sid <;> simp [hc]
        | some sups =>
          have he : processEvent st ctr e =
              ({ st2 with sources := processSupports info sups st2.sources },
               ctr2) := by
            simp only [processEvent, hm, hgc, hca, hgs]
          have hd : eventDelta st.url_to_short_id e sid =
              (sups.map (fun s =>
                supDelta (chunkInfoPure st.url_to_short_id 0 (c :: cs))
                  s sid)).flatten := by
            simp [eventDelta, hm, hgc, hgs]
          rw [he, hd]
          rw [show ({ st2 with
              sources := processSupports info sups st2.sources } :
              RegState).sources = processSupports info sups st2.sources
            from rfl]
          rw [processSupports_claimsAt, hfix1, hinfo]

/-- The claims-list effect of one full invocation, when every url of
`events` is already registered. -/
theorem foldl_claims (events : List AgentEvent) :
    ∀ (st : RegState) (ctr : Nat),
    (∀ e ∈ events, ∀ u ∈ eventUrls e,
      u ∈ st.url_to_short_id.map Prod.fst) →
    ∀ sid,
    claimsAt (events.foldl (fun p e => processEvent p.1 p.2 e)
        (st, ctr)).1.sources sid =
      (claimsAt st.sources sid).map
        (fun l => l ++ passDelta st.url_to_short_id events sid) := by
  induction events with
  | nil =>
    intro st ctr _ sid
    cases hc : claimsAt st.sources sid <;> simp [passDelta, hc]
  | cons e0 es ih =>
    intro st ctr h sid
    have hev := processEvent_claims st ctr e0
      (fun u hu => h e0 (List.mem_cons_self _ _) u hu) sid
    obtain ⟨hu2s, -⟩ := processEvent_fix st ctr e0
      (fun u hu => h e0 (List.mem_cons_self _ _) u hu)
    rcases hpe : processEvent st ctr e0 with ⟨st2, ctr2⟩
    rw [hpe] at hev hu2s
    dsimp only at hev hu2s
    have hf : (e0 :: es).foldl (fun p e => processEvent p.1 p.2 e)
        (st, ctr) =
        es.foldl (fun p e => processEvent p.1 p.2 e) (st2, ctr2) := by
      simp only [List.foldl_cons, hpe]
    rw [hf]
    have ih2 := ih st2 ctr2
      (fun e he u hu => hu2s ▸ h e (List.mem_cons_of_mem _ he) u hu) sid
    rw [ih2, hev, hu2s]
    cases hc : claimsAt st.sources sid <;>
      simp [passDelta, hc, List.append_assoc]

/-- Iterated invocations append one copy of the per-pass delta each,
once the url map is complete for `events`. -/
theorem collectIter_claims (events : List AgentEvent) :
    ∀ (k : Nat) (st : RegState) (sid : String),
    (∀ e ∈ events, ∀ u ∈ eventUrls e,
      u ∈ st.url_to_short_id.map Prod.fst) →
    claimsAt (collectIter events k st).sources sid =
      (claimsAt st.sources sid).map
        (fun l => l ++
          (List.replicate k
            (passDelta st.url_to_short_id events sid)).flatten) := by
  intro k
  induction k with
  | zero =>
    intro st sid _
    cases hc : claimsAt st.sources sid <;> simp [collectIter, hc]
  | succ k ih =>
    intro st sid h
    have hstep : collectIter events (k + 1) st =
        collectIter events k (collectResearchSources events st) := rfl
    rw [hstep]
    obtain ⟨hu2s, -⟩ :=
      foldl_fix events st (st.url_to_short_id.length + 1) h
    have hu2s2 : (collectResearchSources events st).url_to_short_id =
        st.url_to_short_id := hu2s
    have h2 : ∀ e ∈ events, ∀ u ∈ eventUrls e,
        u ∈ (collectResearchSources events st).url_to_short_id.map
          Prod.fst := by
      intro e he u hu
      rw [hu2s2]
      exact h e he u hu
    have ih2 := ih (collectResearchSources events st) sid h2
    rw [ih2, hu2s2]
    have hpass := foldl_claims events st (st.url_to_short_id.length + 1)
      h sid
    rw [show claimsAt (collectResearchSources events st).sources sid =
        (claimsAt st.sources sid).map
          (fun l => l ++ passDelta st.url_to_short_id events sid)
      from hpass]
    cases hc : claimsAt st.sources sid <;>
      simp [hc, List.replicate_succ, List.append_assoc]

/-- C9: every invocation of `collect_research_sources` re-processes all
session events.  Re-processing is idempotent on the url map and on the
source keys: for arbitrary events and starting state, a later pass over
the same events changes neither the url→short-id map nor the set of
registered records, so an already-seen url gets no new short id and its
record is not recreated.  The supported-claims lists, however, are not
idempotent: every invocation after the first appends the same per-pass
delta — the claims its support annotations contribute — to each source,
so `k` later invocations append exactly `k` copies; concretely, after
two invocations over `eventAB` each claim appears exactly twice. -/
theorem reprocessing_duplicates_claims :
    (∀ (events : List AgentEvent) (st : RegState),
      (collectResearchSources events
          (collectResearchSources events st)).url_to_short_id =
        (collectResearchSources events st).url_to_short_id ∧
      (collectResearchSources events
          (collectResearchSources events st)).sources.map Prod.fst =
        (collectResearchSources events st).sources.map Prod.fst) ∧
    (∀ (events : List AgentEvent) (st : RegState) (k : Nat) (sid : String),
      claimsAt (collectIter events (k + 1) st).sources sid =
        (claimsAt (collectResearchSources events st).sources sid).map
          (fun l => l ++
            (List.replicate k
              (passDelta (collectResearchSources events st).url_to_short_id
                events sid)).flatten)) ∧
    (passDelta (collectResearchSources [eventAB] emptyReg).url_to_short_id
        [eventAB] "src-1" =
      [{ text_segment := some "Claim text.", confidence := (0.9 : ℚ) }]) ∧
    (claimsAt (collectResearchSources [eventAB] emptyReg).sources "src-1" =
      some [{ text_segment := some "Claim text.", confidence := (0.9 : ℚ) }]) ∧
    (claimsAt (collectResearchSources [eventAB]
        (collectResearchSources [eventAB] emptyReg)).sources "src-1" =
      some [{ text_segment := some "Claim text.", confidence := (0.9 : ℚ) },
            { text_segment := some "Claim text.", confidence := (0.9 : ℚ) }]) ∧
    (claimsAt (collectResearchSources [eventAB]
        (collectResearchSources [eventAB] emptyReg)).sources "src-2" =
      some [{ text_segment := some "Claim text.", confidence := (0.5 : ℚ) },
            { text_segment := some "Claim text.", confidence := (0.5 : ℚ) }]) := by
  refine ⟨?_, ?_, rfl, rfl, rfl, rfl⟩
  · intro events st
    have hin : ∀ e ∈ events, ∀ u ∈ eventUrls e,
        u ∈ (collectResearchSources events st).url_to_short_id.map
          Prod.fst :=
      fun e he u hu =>
        foldl_urls events st (st.url_to_short_id.length + 1) e he u hu
    exact foldl_fix events (collectResearchSources events st)
      ((collectResearchSources events st).url_to_short_id.length + 1) hin
  · intro events st k sid
    have hin : ∀ e ∈ events, ∀ u ∈ eventUrls e,
        u ∈ (collectResearchSources events st).url_to_short_id.map
          Prod.fst :=
      fun e he u hu =>
        foldl_urls events st (st.url_to_short_id.length + 1) e he u hu
    exact collectIter_claims events k (collectResearchSources events st)
      sid hin

/-- C8 counterexample: a chunk whose title is absent does not fall back
to the domain — the created `Source` record stores an absent title. -/
theorem source_title_fallback_cex :
    webT.title = none ∧ webT.domain = some "t.example" ∧
    ((collectResearchSources [eventT] emptyReg).sources =
      [("src-1",
        { short_id := "src-1", title := none,
          url := some "http://t.example/p", domain := some "t.example",
          supported_claims := [] })]) ∧
    ((none : Option String) ≠ some "t.example") :=
  ⟨rfl, rfl, rfl, by decide⟩

/-- C8 amended: the stored title always equals the chunk's own title —
when title equals domain the (equal) domain value is used, and an
absent title is stored as absent rather than replaced by the domain. -/
theorem source_title_is_chunk_title : ∀ w : Web, chunkTitle w = w.title := by
  intro w
  by_cases h : w.title = w.domain <;> simp [chunkTitle, h]

/-- C6 counterexample: the registry record the collector creates from
a title-less chunk carries the `title` key with value `None`, and the
rewriter renders it as the literal string `None` — it does not fall
back to the domain (or the id), so the claimed display rule fails on
this program-produced registry. -/
theorem citation_rewrite_display_cex :
    ((pyGet (collectResearchSources [eventT] emptyReg).sources "src-1").map
        Source.title = some none) ∧
    ((pyGet (collectResearchSources [eventT] emptyReg).sources "src-1").map
        Source.domain = some (some "t.example")) ∧
    (citationReplacement "X<cite source=\"src-1\"/>"
        (collectResearchSources [eventT] emptyReg).sources =
      ("X [None](http://t.example/p)", [])) ∧
    ("X [None](http://t.example/p)" ≠ "X [t.example](http://t.example/p)") :=
  ⟨rfl, rfl, rfl, by decide⟩

/-- C6 amended: the round trip `Fact<cite source="src-1"/>.` against a
registry whose `src-1` record stores title `T` and url `http://u`
rewrites to exactly `Fact [T](http://u).`; in general every resolvable
marker becomes a single leading space followed by
`[display_text](url)` where `display_text` is the stored title value
as an f-string renders it — the title itself when present, the literal
string `None` when the stored title is `None` — never the domain or
the id, whose `.get` fallbacks are dead because collector-created
records always carry the `title` and `domain` keys. -/
theorem citation_rewrite_resolved :
    (citationReplacement "Fact<cite source=\"src-1\"/>." regT =
      ("Fact [T](http://u).", [])) ∧
    (∀ (reg : List (String × Source)) (sid m : String) (src : Source)
        (t : String), pyGet reg sid = some src → src.title = some t →
      tagReplacer reg sid m =
        (" [" ++ t ++ "](" ++ pyStr src.url ++ ")", none)) ∧
    (∀ (reg : List (String × Source)) (sid m : String) (src : Source),
      pyGet reg sid = some src → src.title = none →
      tagReplacer reg sid m =
        (" [None](" ++ pyStr src.url ++ ")", none)) := by
  refine ⟨rfl, ?_, ?_⟩
  · intro reg sid m src t h ht
    simp [tagReplacer, h, displayValue, pyStr, ht]
  · intro reg sid m src h ht
    simp [tagReplacer, h, displayValue, pyStr, ht]

/-- C6 witness: both display hypotheses discharged — on `regT`, whose
record stores a present title, and on the collector-created title-less
record. -/
theorem citation_rewrite_resolved_witness :
    (tagReplacer regT "src-1" "m" =
      (" [" ++ "T" ++ "](" ++ pyStr srcT.url ++ ")", none)) ∧
    (tagReplacer (collectResearchSources [eventT] emptyReg).sources
        "src-1" "m" =
      (" [None](" ++ pyStr srcNoneTitle.url ++ ")", none)) :=
  ⟨citation_rewrite_resolved.2.1 regT "src-1" "m" srcT "T" rfl rfl,
   citation_rewrite_resolved.2.2
      (collectResearchSources [eventT] emptyReg).sources "src-1" "m"
      srcNoneTitle rfl rfl⟩

/-- C7: a marker whose id does not resolve is deleted (replaced by the
empty string) and only a non-fatal warning is recorded; rewriting
`X<cite source="src-9"/>Y` against the empty registry yields exactly
`XY`.  Both `tagReplacer` and `citationReplacement` are total
functions, so no input raises. -/
theorem citation_rewrite_unresolved :
    (citationReplacement "X<cite source=\"src-9\"/>Y" [] =
      ("XY",
       ["Invalid citation tag found and removed: <cite source=\"src-9\"/>"])) ∧
    (∀ (reg : List (String × Source)) (sid m : String),
      pyGet reg sid = none →
      tagReplacer reg sid m =
        ("", some ("Invalid citation tag found and removed: " ++ m))) := by
  refine ⟨rfl, ?_⟩
  intro reg sid m h
  simp [tagReplacer, h]

/-- C7 witness: the unresolvable-marker hypothesis discharged on the
empty registry. -/
theorem citation_rewrite_unresolved_witness :
    tagReplacer [] "src-9" "<cite source=\"src-9\"/>" =
      ("", some ("Invalid citation tag found and removed: " ++
        "<cite source=\"src-9\"/>")) :=
  citation_rewrite_unresolved.2 [] "src-9" "<cite source=\"src-9\"/>" rfl

theorem seqIds_succ (n : Nat) :
    seqIds (n + 1) = seqIds n ++ ["src-" ++ toString (n + 1)] := by
  simp [seqIds, List.range_succ]

/-- One chunk step preserves the registry invariant and only appends to
the url map. -/
theorem processChunk_inv (st : RegState) (ctr : Nat)
    (info : List (Nat × String)) (idx : Nat) (c : GroundingChunk)
    (h : RegInv st ctr) :
    RegInv (processChunk st ctr info idx c).1
        (processChunk st ctr info idx c).2.1 ∧
    ∃ t, (processChunk st ctr info idx c).1.url_to_short_id =
      st.url_to_short_id ++ t := by
  obtain ⟨hc, hi, hk⟩ := h
  cases hw : c.web with
  | none =>
    simp only [processChunk, hw]
    exact ⟨⟨hc, hi, hk⟩, [], (List.append_nil _).symm⟩
  | some w =>
    cases hg : pyGet st.url_to_short_id w.uri with
    | some sid =>
      simp only [processChunk, hw, hg]
      exact ⟨⟨hc, hi, hk⟩, [], (List.append_nil _).symm⟩
    | none =>
      subst hc
      simp only [processChunk, hw, hg]
      refine ⟨⟨?_, ?_, ?_⟩, [(w.uri, "src-" ++ toString (st.url_to_short_id.length + 1))], rfl⟩
      · simp
      · unfold IdsOk at hi ⊢
        simp only [List.map_append, List.length_append, List.length_singleton,
          List.map_cons, List.map_nil, seqIds_succ, hi]
      · unfold KeysOk at hk ⊢
        simp only [List.map_append, List.map_cons, List.map_nil]
        rw [List.nodup_append]
        refine ⟨hk, List.nodup_singleton _, ?_⟩
        intro a ha hb
        simp only [List.mem_singleton] at hb
        subst hb
        exact (pyGet_eq_none_iff _ _).mp hg ha

/-- The chunk loop of one event preserves the invariant and only
appends to the url map. -/
theorem processChunksAux_inv (cs : List GroundingChunk) :
    ∀ (idx : Nat) (st : RegState) (ctr : Nat) (info : List (Nat × String)),
    RegInv st ctr →
    RegInv (processChunksAux idx cs st ctr info).1
        (processChunksAux idx cs st ctr info).2.1 ∧
    ∃ t, (processChunksAux idx cs st ctr info).1.url_to_short_id =
      st.url_to_short_id ++ t := by
  induction cs with
  | nil =>
    intro idx st ctr info h
    exact ⟨h, [], (List.append_nil _).symm⟩
  | cons c cs ih =>
    intro idx st ctr info h
    obtain ⟨h1, t1, ht1⟩ := processChunk_inv st ctr info idx c h
    rcases hpc : processChunk st ctr info idx c with ⟨st2, ctr2, info2⟩
    rw [hpc] at h1 ht1
    dsimp only at h1 ht1
    have hstep : processChunksAux idx (c :: cs) st ctr info =
        processChunksAux (idx + 1) cs st2 ctr2 info2 := by
      simp only [processChunksAux, hpc]
    rw [hstep]
    obtain ⟨h2, t2, ht2⟩ := ih (idx + 1) st2 ctr2 info2 h1
    refine ⟨h2, t1 ++ t2, ?_⟩
    rw [ht2, ht1, List.append_assoc]

/-- One event step preserves the invariant and only appends to the url
map (its support phase touches only the `sources` accumulator). -/
theorem processEvent_inv (st : RegState) (ctr : Nat) (e : AgentEvent)
    (h : RegInv st ctr) :
    RegInv (processEvent st ctr e).1 (processEvent st ctr e).2 ∧
    ∃ t, (processEvent st ctr e).1.url_to_short_id =
      st.url_to_short_id ++ t := by
  cases hm : e.grounding_metadata with
  | none =>
    simp only [processEvent, hm]
    exact ⟨h, [], (List.append_nil _).symm⟩
  | some md =>
    cases hgc : md.grounding_chunks with
    | none =>
      simp only [processEvent, hm, hgc]
      exact ⟨h, [], (List.append_nil _).symm⟩
    | some chunks =>
      cases chunks with
      | nil =>
        simp only [processEvent, hm, hgc]
        exact ⟨h, [], (List.append_nil _).symm⟩
      | cons c cs =>
        obtain ⟨h1, t1, ht1⟩ := processChunksAux_inv (c :: cs) 0 st ctr [] h
        rcases hca : processChunksAux 0 (c :: cs) st ctr [] with ⟨st2, ctr2, info⟩
        rw [hca] at h1 ht1
        dsimp only at h1 ht1
        cases hgs : md.grounding_supports with
        | none =>
          have he : processEvent st ctr e = (st2, ctr2) := by
            simp only [processEvent, hm, hgc, hca, hgs]
          rw [he]
          exact ⟨h1, t1, ht1⟩
        | some sups =>
          have he : processEvent st ctr e =
              ({ st2 with sources := processSupports info sups st2.sources },
               ctr2) := by
            simp only [processEvent, hm, hgc, hca, hgs]
          rw [he]
          exact ⟨h1, t1, ht1⟩

/-- The whole event fold of one callback invocation preserves the
invariant and only appends to the url map. -/
theorem collectLoop_inv (events : List AgentEvent) :
    ∀ (st : RegState) (ctr : Nat), RegInv st ctr →
    RegInv (events.foldl (fun p e => processEvent p.1 p.2 e) (st, ctr)).1
        (events.foldl (fun p e => processEvent p.1 p.2 e) (st, ctr)).2 ∧
    ∃ t, (events.foldl (fun p e => processEvent p.1 p.2 e)
        (st, ctr)).1.url_to_short_id = st.url_to_short_id ++ t := by
  induction events with
  | nil =>
    intro st ctr h
    exact ⟨h, [], (List.append_nil _).symm⟩
  | cons e es ih =>
    intro st ctr h
    obtain ⟨h1, t1, ht1⟩ := processEvent_inv st ctr e h
    rcases hpe : processEvent st ctr e with ⟨st2, ctr2⟩
    rw [hpe] at h1 ht1
    dsimp only at h1 ht1
    have hf : (e :: es).foldl (fun p e => processEvent p.1 p.2 e) (st, ctr) =
        es.foldl (fun p e => processEvent p.1 p.2 e) (st2, ctr2) := by
      simp only [List.foldl_cons, hpe]
    rw [hf]
    obtain ⟨h2, t2, ht2⟩ := ih st2 ctr2 h1
    refine ⟨h2, t1 ++ t2, ?_⟩
    rw [ht2, ht1, List.append_assoc]

/-- C4: starting from any state satisfying the id invariants (in
particular the empty per-run state), `collect_research_sources` keeps
every url bound to at most one short id, keeps the assigned ids exactly
`src-1 … src-n` in first-discovery order (so the counter seeding from
`len(url_to_short_id) + 1` continues the numbering and `src-1` is the
first newly seen url of the run), and never rebinds or reorders
existing entries (the previous map is a prefix of the new one). -/
theorem registry_short_id_invariant (events : List AgentEvent)
    (st : RegState) (hIds : IdsOk st.url_to_short_id)
    (hKeys : KeysOk st.url_to_short_id) :
    IdsOk (collectResearchSources events st).url_to_short_id ∧
    KeysOk (collectResearchSources events st).url_to_short_id ∧
    ∃ t, (collectResearchSources events st).url_to_short_id =
      st.url_to_short_id ++ t := by
  obtain ⟨⟨-, hI, hK⟩, t, ht⟩ :=
    collectLoop_inv events st (st.url_to_short_id.length + 1)
      ⟨rfl, hIds, hKeys⟩
  exact ⟨hI, hK, t, ht⟩

/-- C4 witness: hypotheses discharged at the empty run state and the
two-chunk event. -/
theorem registry_short_id_invariant_witness :
    IdsOk emptyReg.url_to_short_id ∧ KeysOk emptyReg.url_to_short_id ∧
    (IdsOk (collectResearchSources [eventAB] emptyReg).url_to_short_id ∧
     KeysOk (collectResearchSources [eventAB] emptyReg).url_to_short_id ∧
     ∃ t, (collectResearchSources [eventAB] emptyReg).url_to_short_id =
       emptyReg.url_to_short_id ++ t) :=
  ⟨by decide, by decide,
   registry_short_id_invariant [eventAB] emptyReg (by decide) (by decide)⟩

theorem length_dropWhile_le' {α : Type} (q : α → Bool) :
    ∀ l : List α, (l.dropWhile q).length ≤ l.length := by
  intro l
  induction l with
  | nil => simp
  | cons c cs ih =>
    by_cases h : q c
    · rw [List.dropWhile_cons_of_pos h]
      exact Nat.le_trans ih (Nat.le_succ _)
    · rw [List.dropWhile_cons_of_neg h]

theorem dropWhile_append_sat {α : Type} (q : α → Bool) :
    ∀ (l1 l2 : List α), (∀ c ∈ l1, q c = true) →
    (l1 ++ l2).dropWhile q = l2.dropWhile q := by
  intro l1
  induction l1 with
  | nil => simp
  | cons c cs ih =>
    intro l2 h
    rw [List.cons_append,
      List.dropWhile_cons_of_pos (h c (List.mem_cons_self _ _))]
    exact ih l2 (fun x hx => h x (List.mem_cons_of_mem _ hx))

theorem punct_not_space (c : Char) (h : pyIsPunct c = true) :
    pyIsSpace c = false := by
  simp only [pyIsPunct, Bool.or_eq_true, beq_iff_eq] at h
  rcases h with ((h | h) | h) | h <;> subst h <;> rfl

/-- Fuel irrelevance for the whitespace fix-up: any fuel of at least
the input length computes the same result as the exact fuel. -/
theorem normWsF_high :
    ∀ (f : Nat) (l : List Char), l.length ≤ f → normWsF f l = normWs l := by
  intro f
  induction f using Nat.strong_induction_on with
  | _ f ih =>
    intro l hl
    cases l with
    | nil => cases f <;> rfl
    | cons c cs =>
      cases f with
      | zero => exact absurd hl (by simp)
      | succ fk =>
        have hcs : cs.length ≤ fk := by simpa using hl
        by_cases hsp : pyIsSpace c
        · cases hrest : (c :: cs).dropWhile pyIsSpace with
          | nil =>
            rw [normWs, List.length_cons]
            simp only [normWsF, hsp, hrest, if_true]
          | cons p rest2 =>
            have hlen : (p :: rest2).length ≤ cs.length := by
              have := hrest ▸ length_dropWhile_le' pyIsSpace (c :: cs)
              rw [List.dropWhile_cons_of_pos hsp] at hrest
              have := hrest ▸ length_dropWhile_le' pyIsSpace cs
              simpa using this
            have hr2 : rest2.length ≤ cs.length := by
              simp only [List.length_cons] at hlen
              omega
            by_cases hp : pyIsPunct p
            · rw [normWs, List.length_cons]
              simp only [normWsF, hsp, hrest, if_true, hp]
              rw [ih fk (Nat.lt_succ_self _) rest2 (Nat.le_trans hr2 hcs),
                ih cs.length (Nat.lt_succ_of_le hcs) rest2 hr2]
            · rw [normWs, List.length_cons]
              simp only [normWsF, hsp, hrest, if_true, hp,
                Bool.false_eq_true, if_false]
              rw [ih fk (Nat.lt_succ_self _) (p :: rest2)
                  (Nat.le_trans hlen hcs),
                ih cs.length (Nat.lt_succ_of_le hcs) (p :: rest2) hlen]
        · rw [normWs, List.length_cons]
          simp only [normWsF, hsp, Bool.false_eq_true, if_false]
          rw [ih fk (Nat.lt_succ_self _) cs hcs,
            ih cs.length (Nat.lt_succ_of_le hcs) cs (Nat.le_refl _)]

/-- C10: the whitespace fix-up of the citation rewriter deletes every
maximal whitespace run that immediately precedes `. , ; :` — also runs
that were already present in the input and came from no substitution —
while copying non-whitespace characters unchanged; hence a marker-free
report (here `"Fact ."`, left untouched by the tag-substitution pass)
can still come out changed. -/
theorem normalization_strips_preexisting_ws :
    (∀ (ws : List Char) (p : Char) (rest : List Char),
      ws ≠ [] → (∀ c ∈ ws, pyIsSpace c = true) → pyIsPunct p = true →
      normWs (ws ++ p :: rest) = p :: normWs rest) ∧
    (∀ (c : Char) (rest : List Char), pyIsSpace c = false →
      normWs (c :: rest) = c :: normWs rest) ∧
    (citeSub [] "Fact .".toList = ("Fact .".toList, [])) ∧
    (citationReplacement "Fact ." [] = ("Fact.", [])) ∧
    ("Fact." ≠ "Fact .") := by
  refine ⟨?_, ?_, rfl, rfl, by decide⟩
  · intro ws p rest hne hall hp
    cases ws with
    | nil => exact absurd rfl hne
    | cons w ws2 =>
      have hw : pyIsSpace w = true := hall w (List.mem_cons_self _ _)
      have hdrop : List.dropWhile pyIsSpace (w :: (ws2 ++ p :: rest)) =
          p :: rest := by
        rw [show w :: (ws2 ++ p :: rest) = (w :: ws2) ++ p :: rest from rfl,
          dropWhile_append_sat pyIsSpace (w :: ws2) (p :: rest) hall,
          List.dropWhile_cons_of_neg]
        simp [punct_not_space p hp]
      rw [normWs]
      simp only [List.cons_append, List.length_cons]
      simp only [normWsF, hw, if_true, hdrop, hp]
      rw [normWsF_high (ws2 ++ p :: rest).length rest
        (by simp only [List.length_append, List.length_cons]; omega)]
  · intro c rest h
    rw [normWs, List.length_cons]
    simp only [normWsF, h, Bool.false_eq_true, if_false]
    rw [normWsF_high rest.length rest (Nat.le_refl _)]

/-- C10 witness: hypotheses discharged on a one-space run before a
period and on a single non-space character. -/
theorem normalization_strips_preexisting_ws_witness :
    normWs ([' '] ++ '.' :: []) = '.' :: normWs [] ∧
    normWs ('a' :: []) = 'a' :: normWs [] :=
  ⟨normalization_strips_preexisting_ws.1 [' '] '.' [] (by decide) (by decide)
    (by decide),
   normalization_strips_preexisting_ws.2.1 'a' [] (by decide)⟩
